import Mathlib

/-!
Verification of the libq fixed-point library (aka-sps/libq) against its
natural-language specification.

The development shallowly embeds the parts of the C++ source that the
claims refer to:

* the Q-format data model of `libq::fixed_point<T, n, f, e, op, up>`
  (src/libq/fixed_point.hpp): storage width, integer/fractional bit
  counts, scaling exponent, stored-integer bounds;
* the `Q`/`UQ` aliases (fixed_point.hpp, lines 575-579);
* `normalize` (fixed_point.hpp, lines 528-552);
* `calc_stored_integer_from` for floating-point inputs
  (fixed_point.hpp, lines 503-517), with real arithmetic idealized to
  exact rational arithmetic;
* unary `operator -` (fixed_point.hpp, lines 487-496);
* `core::quotient` (src/src/quotient.hpp) and the division evaluation of
  `operator /` (fixed_point.hpp, lines 458-477);
* the `sin` range reduction (src/src/CORDIC/sin.inl) and `sinh`
  (src/src/CORDIC/sinh.inl), idealized over the reals;
* `lut::hyperbolic_scale_with_repeated_iterations`
  (src/libq/CORDIC/lut/hyperbolic_scale.inl).

C++ machine arithmetic is modelled explicitly: unsigned `std::size_t`
arithmetic is arithmetic modulo `2^64`, integer casts wrap modulo `2^W`
into the destination's range (the de-facto two's-complement behaviour),
signed right shift is an arithmetic shift (flooring division by a power
of two, `Int.fdiv`), and C++ integer division truncates toward zero
(`Int.tdiv`).

Pieces of the library that the claims depend on but whose sources are
not part of this snapshot (`details/sum_traits.inl`, `details/div_of.inl`,
`details/fmod.inl`, `CORDIC/exp.inl`, the `arithmetics_safety.hpp`
predicates) are modelled from the specification text; each such
definition carries a doc comment saying so.
-/

namespace LibQ

/-- Modulus of `std::size_t` arithmetic (64-bit host). -/
def szMod : Nat := 2 ^ 64

/-- Subtraction of `std::size_t` values: `a - b` wraps modulo `2^64`. -/
def subSz (a b : Nat) : Nat :=
  (a % szMod + (szMod - b % szMod)) % szMod

/-- Widths of the host integer types available to `boost::int_t` and
`boost::uint_t`. -/
def hostWidths : List Nat := [8, 16, 32, 64]

/-- Width of `boost::int_t<b>::least`: the smallest signed host integer
with at least `b` bits, the sign bit included; `none` if no host integer
is wide enough. -/
def intLeastWidth (b : Nat) : Option Nat :=
  hostWidths.find? (fun w => b ≤ w)

/-- Width of `boost::uint_t<b>::least`: the smallest unsigned host
integer with at least `b` value bits. -/
def uintLeastWidth (b : Nat) : Option Nat :=
  hostWidths.find? (fun w => b ≤ w)

/-- Compile-time data of one instantiation
`libq::fixed_point<T, n, f, e, op, up>`:
the signedness and bit width of the storage type `T`, the template
arguments `n` (bits for the integral part), `f` (bits for the
fractional part) — both of C++ type `std::size_t` — and the scaling
exponent `e`. -/
structure Fmt where
  signed : Bool
  width : Nat
  n : Nat
  f : Nat
  e : Int
deriving DecidableEq, Repr

/-- Enum `number_of_significant_bits = n + f`, computed in `std::size_t`
arithmetic. -/
def Fmt.nsb (F : Fmt) : Nat :=
  (F.n + F.f) % szMod

/-- Member `largest_stored_integer` =
`boost::low_bits_mask_t<number_of_significant_bits>::sig_bits`. -/
def Fmt.largestStored (F : Fmt) : Int :=
  2 ^ F.nsb - 1

/-- Member `least_stored_integer` = `is_signed * (-largest - 1)`. -/
def Fmt.leastStored (F : Fmt) : Int :=
  if F.signed then -F.largestStored - 1 else 0

/-- Real value represented by a stored integer of format `F`:
`stored / scale * scaling_factor() = stored * 2^(-f) * 2^(-e)`
(member `to_floating_point`, fixed_point.hpp lines 554-558), idealized
over the exact rationals. -/
def Fmt.value (F : Fmt) (v : Int) : ℚ :=
  (v : ℚ) * (2 : ℚ) ^ (-(F.f : Int) - F.e)

/-- Conversion of an arbitrary integer to a `W`-bit host integer type:
reduction modulo `2^W` into the type's range (the de-facto
two's-complement behaviour of C++ integral conversions). -/
def wrapCast (signed : Bool) (W : Nat) (v : Int) : Int :=
  if signed then (v + 2 ^ (W - 1)) % 2 ^ W - 2 ^ (W - 1)
  else v % 2 ^ W

/-- Range of values representable in a `W`-bit host integer. -/
def inRange (signed : Bool) (W : Nat) (v : Int) : Prop :=
  if signed then -(2 ^ (W - 1)) ≤ v ∧ v < 2 ^ (W - 1) else 0 ≤ v ∧ v < 2 ^ W

instance (sg : Bool) (W : Nat) (v : Int) : Decidable (inRange sg W v) := by
  unfold inRange
  infer_instance

/-- Arithmetic right shift of a signed value, `v >> s`: flooring
division by `2^s`. -/
def sar (v : Int) (s : Nat) : Int :=
  Int.fdiv v (2 ^ s)

/-- Alias `libq::Q<n, f, e, op, up>` (fixed_point.hpp lines 575-576):
`fixed_point<typename boost::int_t<n+1>::least, n-f, f, e, op, up>`,
where `n - f` is `std::size_t` subtraction. `none` when no host integer
has `n+1` bits. -/
def Qalias (n f : Nat) (e : Int) : Option Fmt :=
  (intLeastWidth (n + 1)).map (fun w => ⟨true, w, subSz n f, f, e⟩)

/-- Alias `libq::UQ<n, f, e, op, up>` (fixed_point.hpp lines 578-579):
`fixed_point<typename boost::uint_t<n>::least, n-f, f, e, op, up>`. -/
def UQalias (n f : Nat) (e : Int) : Option Fmt :=
  (uintLeastWidth n).map (fun w => ⟨false, w, subSz n f, f, e⟩)

/-- Format that the words of claim C1 describe: signed, `n` integral
bits, `f` fractional bits, scaling exponent `e`, storage the smallest
signed host integer with at least `n+f+1` bits. -/
def QaliasClaimed (n f : Nat) (e : Int) : Option Fmt :=
  (intLeastWidth (n + f + 1)).map (fun w => ⟨true, w, n, f, e⟩)

/-- Event test of `wrap` (fixed_point.hpp lines 281-284): the input is
outside the stored-integer bounds of the format. -/
def wrapEvent (F : Fmt) (v : Int) : Bool :=
  decide ((v < 0 ∧ v < F.leastStored) ∨ (0 < v ∧ F.largestStored < v))

/-- Member `wrap` (fixed_point.hpp lines 276-290): raises the overflow
event when the input is outside the stored-integer bounds, then stores
`storage_type(_val)`.  Returns the stored integer and the event flag. -/
def wrap (F : Fmt) (v : Int) : Int × Bool :=
  (wrapCast F.signed F.width v, wrapEvent F v)

/-- Member `normalize` together with its branch selector
(fixed_point.hpp lines 303-308 and 528-552).  `F1` is the source
format, `F` the destination.  The `std::true_type` overload (right
shift) is chosen iff `f1 + e1 - f - e > 0`; otherwise the
`std::false_type` overload (left shift) runs.  Returns the stored
result, the overflow-event flag and the underflow-event flag. -/
def normalize (F1 F : Fmt) (v : Int) : Int × Bool × Bool :=
  if (F1.f : Int) + F1.e - (F.f : Int) - F.e > 0 then
    let s := ((F1.f : Int) + F1.e - (F.f : Int) - F.e).toNat
    let normalized := wrapCast F.signed F.width (sar v s)
    (normalized, false, decide (v ≠ 0 ∧ normalized = 0))
  else
    let s := ((F.f : Int) + F.e - (F1.f : Int) - F1.e).toNat
    let normalized := wrapCast F.signed F.width (wrapCast F.signed F.width v * 2 ^ s)
    (normalized, decide (v ≠ sar normalized s), false)

/-- Rounding to the nearest integer with ties away from zero. -/
def roundHalfAwayFromZero (q : ℚ) : Int :=
  if 0 ≤ q then ⌊q + 1 / 2⌋ else ⌈q - 1 / 2⌉

/-- Member `calc_stored_integer_from(_x, std::true_type)` for
floating-point inputs (fixed_point.hpp lines 503-517), host `double`
arithmetic idealized to exact rational arithmetic:
`value = x * 2^e`; for positive `x` the stored integer is
`floor(value * scale + 0.5)` cast to the storage type, and the overflow
event is raised iff the cast value is negative; otherwise the stored
integer is `ceil(value * scale - 0.5)` cast, with no check. -/
def calcStoredFromReal (F : Fmt) (x : ℚ) : Int × Bool :=
  let value : ℚ := x * (2 : ℚ) ^ F.e
  if 0 < x then
    let converted := wrapCast F.signed F.width ⌊value * (2 : ℚ) ^ F.f + 1 / 2⌋
    (converted, decide (converted < 0))
  else
    (wrapCast F.signed F.width ⌈value * (2 : ℚ) ^ F.f - 1 / 2⌉, false)

/-- Modelled from the spec: `does_unary_negation_overflow`
(arithmetics_safety.hpp is absent from src).  Per §4.2, unary negation
"fails on signed minimum"; for an unsigned format it never fires. -/
def negationOverflows (F : Fmt) (v : Int) : Bool :=
  F.signed && decide (v = F.leastStored)

/-- Unary `operator -` (fixed_point.hpp lines 487-496): raise when the
negation overflows; for an unsigned format return
`wrap(largest_stored_integer - value())`, else `wrap(-value())`. -/
def negEval (F : Fmt) (v : Int) : Int × Bool :=
  let ovf := negationOverflows F v
  if !F.signed then
    let r := wrap F (F.largestStored - v)
    (r.1, ovf || r.2)
  else
    let r := wrap F (-v)
    (r.1, ovf || r.2)

/-- Compile-time data of one instantiation
`core::fixed_point<T, n, f, op, up>` of the older generation in src/src;
there `n` counts all significant bits (`std::numeric_limits::digits = n`)
and `f` of them are fractional. -/
structure CoreFmt where
  signed : Bool
  width : Nat
  n : Nat
  f : Nat
deriving DecidableEq, Repr

/-- Member `is_closed` of `core::quotient` (src/src/quotient.hpp lines
55-62): the quotient type is closed iff no host integer can hold
`n1 + n2` significant bits (`digits` of `intmax_t` is 63, of
`uintmax_t` 64; signedness is that of the left operand's storage). -/
def quotientClosed (A B : CoreFmt) : Bool :=
  decide (¬(A.n + B.n ≤ if A.signed then 63 else 64))

/-- Member `type` of `core::quotient` (src/src/quotient.hpp lines
64-98): the left operand's format when closed; otherwise the format
with `n1 + n2` significant bits, `f1 + (n2 - f2)` fractional bits
(size_t subtraction) over the storage `boost::int_t<n1+n2+1>::least`
(signed) or `boost::uint_t<n1+n2>::least` (unsigned). -/
def quotientFmt (A B : CoreFmt) : Option CoreFmt :=
  if quotientClosed A B then some A
  else
    (if A.signed then intLeastWidth (A.n + B.n + 1) else uintLeastWidth (A.n + B.n)).map
      (fun w => ⟨A.signed, w, A.n + B.n, A.f + subSz B.n B.f⟩)

/-- Modelled from the spec: `details/div_of.inl` is absent from src.
The promoted significant/fractional bits and the storage follow
`core::quotient` (src/src/quotient.hpp) applied to the wordlengths
`n + f`; §4.2 adds the scaling exponent `e = e_A - e_B` for the
expandable case, while a closed quotient degenerates to the left
operand's format. -/
def div_of (A B : Fmt) : Option Fmt :=
  let cA : CoreFmt := ⟨A.signed, A.width, A.n + A.f, A.f⟩
  let cB : CoreFmt := ⟨B.signed, B.width, B.n + B.f, B.f⟩
  (quotientFmt cA cB).map
    (fun R => ⟨R.signed, R.width, R.n - R.f, R.f,
               if quotientClosed cA cB then A.e else A.e - B.e⟩)

/-- Result format that the words of claim C2 describe, reading
`(n, f, e)` per §3 as integer bits / fractional bits / scaling
exponent: `n = n_A + n_B` (plus a sign bit in storage if signed),
`f = f_A + (n_B - f_B)`, `e = e_A - e_B`, storage the smallest host
integer of the required width. -/
def divFmtClaimed (A B : Fmt) : Option Fmt :=
  let n := A.n + B.n
  let f := A.f + (B.n - B.f)
  (if A.signed then intLeastWidth (n + f + 1) else uintLeastWidth (n + f)).map
    (fun w => ⟨A.signed, w, n, f, A.e - B.e⟩)

/-- Modelled from the spec: `does_division_overflow`
(arithmetics_safety.hpp is absent from src).  Per §4.3 and §7,
"Division by zero and overflow (signed min / -1) trigger the overflow
policy". -/
def divisionOverflows (A B : Fmt) (va vb : Int) : Bool :=
  decide (vb = 0) || (A.signed && decide (va = A.leastStored ∧ vb = -1))

/-- `operator /` evaluation (fixed_point.hpp lines 458-477): in the
promoted word type, the numerator's stored integer is left-shifted by
the divisor's `number_of_significant_bits`; when the promotion is not
expandable and the denominator differs from the shifted value
right-shifted back, the overflow policy fires (as the source is
written); the result wraps `shifted / denominator` (C++ division
truncates toward zero) into the promoted format. -/
def divEval (A B : Fmt) (va vb : Int) : Option (Int × Bool) :=
  (div_of A B).map (fun R =>
    let cA : CoreFmt := ⟨A.signed, A.width, A.n + A.f, A.f⟩
    let cB : CoreFmt := ⟨B.signed, B.width, B.n + B.f, B.f⟩
    let nsbB := (B.n + B.f) % szMod
    let ovf := divisionOverflows A B va vb
    let shifted := wrapCast R.signed R.width (wrapCast R.signed R.width va * 2 ^ nsbB)
    let chk := quotientClosed cA cB && decide (vb ≠ sar shifted nsbB)
    let r := wrap R (Int.tdiv shifted (wrapCast R.signed R.width vb))
    (r.1, ovf || chk || r.2))

/-- Modelled from the spec: `sum_traits` (details/sum_traits.inl is
absent from src).  §4.2: the sum's format has `n = max(n_A, n_B) + 1`,
`f = max(f_A, f_B)`, `e = min(e_A, e_B)`; `operator +` first converts
the right operand to the left operand's format, so both operands share
`F` and the promotion is `n+1, f, e`.  If no host integer of width
`n + f` (plus sign bit if signed) exists the descriptor degenerates to
the left operand; size_t arithmetic is modulo `2^64`. -/
def sum_traits (F : Fmt) : Fmt :=
  let n' := (F.n + 1) % szMod
  let need := (n' + F.f) % szMod + (if F.signed then 1 else 0)
  match (if F.signed then intLeastWidth need else uintLeastWidth need) with
  | some w => ⟨F.signed, w, n', F.f, F.e⟩
  | none => F

/-- Modelled from the spec: `does_addition_overflow`
(arithmetics_safety.hpp is absent from src).  §4.3: "Overflow detected
when the sign bits of operands agree but differ from the sign bit of
the result (unsigned: carry)", the addition taken in the left
operand's storage type. -/
def additionOverflows (F : Fmt) (vx vy : Int) : Bool :=
  if F.signed then
    decide (0 ≤ vx ∧ 0 ≤ vy ∧ wrapCast true F.width (vx + vy) < 0) ||
      decide (vx < 0 ∧ vy < 0 ∧ 0 ≤ wrapCast true F.width (vx + vy))
  else
    decide (2 ^ F.width ≤ vx + vy)

/-- `operator +` (fixed_point.hpp lines 380-393) with both operands
already in format `F` (the right operand is converted first by the
source): raise if the addition overflows, add the stored integers in
the promoted word type, and wrap the sum into the promoted format. -/
def sumEval (F : Fmt) (vx vy : Int) : Int × Bool :=
  let S := sum_traits F
  let ovf := additionOverflows F vx vy
  let stored := wrapCast S.signed S.width (vx + vy)
  let r := wrap S stored
  (r.1, ovf || r.2)

/-- Domain check of `std::atanh` (src/unnamed/part_002, lines 44-45):
`assert(fabs(_val) <= Q(1.0f))`.  `fabs` (details/fabs.inl is absent
from src) is modelled from the spec as the stored-integer absolute
value; `Q(1.0f)` is the fixed-point constructed from the real 1 by
`calc_stored_integer_from`.  The domain error is raised exactly when
the assertion fails. -/
def atanhDomainError (F : Fmt) (v : Int) : Bool :=
  decide (¬(|v| ≤ (calcStoredFromReal F 1).1))

/-- Truncation toward zero, the rounding used by C `fmod`. -/
noncomputable def rtrunc (q : ℝ) : Int :=
  if 0 ≤ q then ⌊q⌋ else ⌈q⌉

/-- Modelled from the spec: `std::fmod` for fixed-point numbers
(details/fmod.inl is absent from src); C `fmod` semantics:
`fmod(a, b) = a - b * trunc(a / b)`, the remainder carrying the
dividend's sign. -/
noncomputable def fmodR (a b : ℝ) : ℝ :=
  a - b * rtrunc (a / b)

/-- Range reduction of `std::sin` (src/src/CORDIC/sin.inl lines 18-36),
idealized over ℝ with the exact constants π, π/2, 2π:
`x = CONST_PI - fmod(val, CONST_2PI)`, then the two-branch correction.
Returns the CORDIC rotation argument and the sign applied to the
CORDIC output. -/
noncomputable def sinReduce (θ : ℝ) : ℝ × Int :=
  let x := Real.pi - fmodR θ (2 * Real.pi)
  if x < -(Real.pi / 2) then (x + Real.pi, -1)
  else if x > Real.pi / 2 then (x - Real.pi, -1)
  else (x, 1)

/-- Modelled from the spec: `CORDIC/exp.inl` is absent from src; §4.4
specifies the natural exponential (`x = k ln 2 + r`,
`exp(x) = 2^k exp(r)`), idealized to `Real.exp`. -/
noncomputable def qexp (x : ℝ) : ℝ :=
  Real.exp x

/-- Constant `CONST_LOG2E` (fixed_point.hpp line 590), idealized to the
exact `log₂ e = 1 / ln 2`. -/
noncomputable def constLog2E : ℝ :=
  1 / Real.log 2

/-- `std::sinh` (src/src/CORDIC/sinh.inl lines 6-14), idealized over ℝ:
`arg = val * CONST_LOG2E`; the result is `exp(arg) - exp(-arg)` halved
(the source halves by an arithmetic right shift of the stored integer;
exact halving here). -/
noncomputable def qsinh (v : ℝ) : ℝ :=
  (qexp (v * constLog2E) - qexp (-(v * constLog2E))) / 2

/-- Sequence of repeated hyperbolic CORDIC iteration indices: 4, 13,
40, …, each subsequent equal to 3·previous + 1 (hyperbolic_scale.inl
line 37). -/
def seqIdx : Nat → Nat
  | 0 => 4
  | k + 1 => 3 * seqIdx k + 1

/-- Decidable membership in the repeated-iteration sequence
(`seqIdx k ≥ k + 4`, so a bounded search suffices). -/
def inSeq (i : Nat) : Bool :=
  (List.range (i + 1)).any (fun k => seqIdx k = i)

/-- Loop of `lut::hyperbolic_scale_with_repeated_iterations`
(hyperbolic_scale.inl lines 27-40), recorded as the list of iteration
indices whose factor is multiplied into the scale, in order: `i` runs
over `[1, n)`; each `i` contributes once, and once more when `i`
equals the current `repeated` counter and `i ≠ n - 1`; in that case
`repeated` advances to `3·repeated + 1` (the post-increment of the
loop variable inside the body does not survive to the next
BOOST_FOREACH iteration, which copies a fresh value from the range). -/
def hyperSchedGo (n : Nat) : Nat → Nat → Nat → List Nat
  | 0, _, _ => []
  | fuel + 1, i, rep =>
    if i < n then
      (if i = rep ∧ i ≠ n - 1 then [i, i] else [i]) ++
        hyperSchedGo n fuel (i + 1) (if i = rep ∧ i ≠ n - 1 then 3 * rep + 1 else rep)
    else []

/-- Iteration indices multiplied into the hyperbolic scale for a
schedule of `n` iterations: the loop starts at `i = 1` with
`repeated = 4` and runs while `i < n` (a fuel of `n` steps suffices,
as `i` increases by one per iteration). -/
def hyperSched (n : Nat) : List Nat :=
  hyperSchedGo n n 1 4

/-- Factor multiplied per iteration `i`:
`sqrt(1.0 - pow(2.0, -2.0 * i))` (hyperbolic_scale.inl line 31). -/
noncomputable def hyperFactor (i : Nat) : ℝ :=
  Real.sqrt (1 - (2 : ℝ) ^ (-(2 * (i : Int))))

/-- `lut::hyperbolic_scale_with_repeated_iterations`
(hyperbolic_scale.inl lines 24-41): the product of the factors over
the schedule. -/
noncomputable def hyperbolicScale (n : Nat) : ℝ :=
  ((hyperSched n).map hyperFactor).prod

/-- Product that the words of claim C9 describe: one factor for each
`i = 1 … n-1`, squared exactly when `i` belongs to the
repeated-iteration sequence. -/
noncomputable def hyperbolicScaleClaimed (n : Nat) : ℝ :=
  ((List.range' 1 (n - 1)).map
    (fun i => hyperFactor i ^ (if inSeq i then 2 else 1))).prod

/-- Product with the repetition schedule the source actually uses: the
factor for `i` is squared exactly when `i` is in the repeated sequence
and `i ≠ n - 1`. -/
noncomputable def hyperbolicScaleAmended (n : Nat) : ℝ :=
  ((List.range' 1 (n - 1)).map
    (fun i => hyperFactor i ^ (if inSeq i ∧ i ≠ n - 1 then 2 else 1))).prod

theorem subSz_eq_sub (a b : Nat) (hb : b ≤ a) (ha : a < szMod) :
    subSz a b = a - b := by
  unfold subSz
  have hbs : b < szMod := lt_of_le_of_lt hb ha
  have h1 : a % szMod = a := Nat.mod_eq_of_lt ha
  have h2 : b % szMod = b := Nat.mod_eq_of_lt hbs
  rw [h1, h2]
  have h3 : a + (szMod - b) = szMod + (a - b) := by omega
  rw [h3]
  have h4 : a - b < szMod := by omega
  rw [Nat.add_mod_left]
  exact Nat.mod_eq_of_lt h4

theorem uintLeastWidth_eq_intLeastWidth : uintLeastWidth = intLeastWidth :=
  rfl

theorem intLeastWidth_closed (b : Nat) (hb : b ≤ 64) :
    intLeastWidth b =
      some (if b ≤ 8 then 8 else if b ≤ 16 then 16 else if b ≤ 32 then 32
            else 64) := by
  unfold intLeastWidth hostWidths
  by_cases h1 : b ≤ 8
  · simp [List.find?, h1]
  · by_cases h2 : b ≤ 16
    · simp [List.find?, h1, h2]
    · by_cases h3 : b ≤ 32
      · simp [List.find?, h1, h2, h3]
      · simp [List.find?, h1, h2, h3, hb]

theorem intLeastWidth_spec (b : Nat) (hb : b ≤ 64) :
    ∃ w, intLeastWidth b = some w ∧ w ∈ hostWidths ∧ b ≤ w ∧
      ∀ u ∈ hostWidths, b ≤ u → w ≤ u := by
  refine ⟨_, intLeastWidth_closed b hb, ?_, ?_, ?_⟩
  · split_ifs <;> simp [hostWidths]
  · split_ifs <;> omega
  · intro u hu hbu
    split_ifs <;> simp [hostWidths] at hu <;> rcases hu with h | h | h | h <;> omega

theorem szMod_val : szMod = 18446744073709551616 :=
  rfl

theorem pow_split (W : Nat) (hW : 0 < W) : (2 : Int) ^ W = 2 ^ (W - 1) * 2 := by
  rw [← pow_succ]
  congr 1
  omega

theorem wrapCast_eq_self (sg : Bool) (W : Nat) (v : Int) (hW : 0 < W)
    (h : inRange sg W v) : wrapCast sg W v = v := by
  unfold wrapCast
  unfold inRange at h
  cases sg with
  | false =>
    simp only [Bool.false_eq_true, if_false] at h ⊢
    exact Int.emod_eq_of_lt h.1 h.2
  | true =>
    simp only [eq_self_iff_true, if_true] at h ⊢
    rcases h with ⟨h1, h2⟩
    have hsplit := pow_split W hW
    have hm : (v + 2 ^ (W - 1)) % 2 ^ W = v + 2 ^ (W - 1) :=
      Int.emod_eq_of_lt (by omega) (by omega)
    rw [hm]
    ring

theorem wrapCast_sub_dvd (sg : Bool) (W : Nat) (v : Int) :
    (2 ^ W : Int) ∣ v - wrapCast sg W v := by
  unfold wrapCast
  split_ifs
  · have heq : v - ((v + 2 ^ (W - 1)) % 2 ^ W - 2 ^ (W - 1)) =
        (v + 2 ^ (W - 1)) - (v + 2 ^ (W - 1)) % 2 ^ W := by
      ring
    rw [heq]
    exact Int.dvd_sub_of_emod_eq rfl
  · exact Int.dvd_sub_of_emod_eq rfl

theorem wrapCast_inRange (sg : Bool) (W : Nat) (v : Int) (hW : 0 < W) :
    inRange sg W (wrapCast sg W v) := by
  have hpos : (0 : Int) < 2 ^ W := by positivity
  have hsplit := pow_split W hW
  unfold wrapCast inRange
  cases sg with
  | false =>
    simp only [Bool.false_eq_true, if_false]
    exact ⟨Int.emod_nonneg v (by positivity), Int.emod_lt_of_pos v hpos⟩
  | true =>
    simp only [eq_self_iff_true, if_true]
    have hm0 : 0 ≤ (v + 2 ^ (W - 1)) % 2 ^ W :=
      Int.emod_nonneg _ (by positivity)
    have hm1 : (v + 2 ^ (W - 1)) % 2 ^ W < 2 ^ W :=
      Int.emod_lt_of_pos _ hpos
    omega

/-- Claim C1 fails as stated: instantiating `Q(30, 20, 0)` yields the
format with `30 - 20 = 10` integral bits over the 32-bit storage
`boost::int_t<31>::least`, not a format with 30 integral bits over a
storage of at least 51 bits as the claim's reading would require. -/
theorem c1_counterexample : Qalias 30 20 0 ≠ QaliasClaimed 30 20 0 := by
  decide

/-- Claim C1 (amended): for `f ≤ n` and `n + 1 ≤ 64`, the alias
`Q(n, f, e, OP, UP)` is signed, has `n` *significant* bits of which
`n - f` are integral and `f` fractional, represents
`stored · 2^(-f) · 2^(-e)` (prescale `2^(-e)`), and its storage is the
smallest signed host integer with at least `n + 1` bits (the sign bit
included); `UQ(n, f, e)` is the unsigned counterpart over the smallest
unsigned host integer with at least `n` bits. -/
theorem c1_q_alias_format (n f : Nat) (e : Int) (hfn : f ≤ n) (hn : n + 1 ≤ 64) :
    (∃ w, Qalias n f e = some ⟨true, w, n - f, f, e⟩ ∧
       w ∈ hostWidths ∧ n + 1 ≤ w ∧ (∀ u ∈ hostWidths, n + 1 ≤ u → w ≤ u) ∧
       ∀ v : Int, Fmt.value ⟨true, w, n - f, f, e⟩ v =
         (v : ℚ) * (2 : ℚ) ^ (-(f : Int)) * (2 : ℚ) ^ (-e)) ∧
    ∃ w', UQalias n f e = some ⟨false, w', n - f, f, e⟩ ∧
       w' ∈ hostWidths ∧ n ≤ w' ∧ ∀ u ∈ hostWidths, n ≤ u → w' ≤ u := by
  have hsub : subSz n f = n - f := by
    refine subSz_eq_sub n f hfn ?_
    rw [szMod_val]
    omega
  have hval : ∀ (w : Nat) (v : Int),
      Fmt.value ⟨true, w, n - f, f, e⟩ v =
        (v : ℚ) * (2 : ℚ) ^ (-(f : Int)) * (2 : ℚ) ^ (-e) := by
    intro w v
    unfold Fmt.value
    rw [mul_assoc, ← zpow_add₀ (two_ne_zero)]
    ring_nf
  constructor
  · obtain ⟨w, hw, hmem, hle, hmin⟩ := intLeastWidth_spec (n + 1) hn
    refine ⟨w, ?_, hmem, hle, hmin, hval w⟩
    unfold Qalias
    rw [hw, hsub]
    rfl
  · obtain ⟨w', hw', hmem', hle', hmin'⟩ := intLeastWidth_spec n (by omega)
    refine ⟨w', ?_, hmem', hle', hmin'⟩
    unfold UQalias
    rw [uintLeastWidth_eq_intLeastWidth, hw', hsub]
    rfl

/-- Witness for `c1_q_alias_format` at `n = 30`, `f = 20`, `e = 0`. -/
theorem c1_q_alias_format_witness :
    20 ≤ 30 ∧ 30 + 1 ≤ 64 ∧
      ((∃ w, Qalias 30 20 0 = some ⟨true, w, 30 - 20, 20, 0⟩ ∧
         w ∈ hostWidths ∧ 30 + 1 ≤ w ∧ (∀ u ∈ hostWidths, 30 + 1 ≤ u → w ≤ u) ∧
         ∀ v : Int, Fmt.value ⟨true, w, 30 - 20, 20, 0⟩ v =
           (v : ℚ) * (2 : ℚ) ^ (-(20 : Int)) * (2 : ℚ) ^ (-(0 : Int))) ∧
       ∃ w', UQalias 30 20 0 = some ⟨false, w', 30 - 20, 20, 0⟩ ∧
         w' ∈ hostWidths ∧ 30 ≤ w' ∧ ∀ u ∈ hostWidths, 30 ≤ u → w' ≤ u) :=
  ⟨by decide, by decide, c1_q_alias_format 30 20 0 (by decide) (by decide)⟩

/-- Claim C10: for an unsigned format, unary negation returns the value
whose stored integer is `largest_stored_integer - value()` (a
reflection about the range midpoint), no overflow event fires for a
representable input, and negation is an involution: `-(-x) = x`. -/
theorem c10_unsigned_negation (F : Fmt) (v : Int) (hs : F.signed = false)
    (hW : 0 < F.width) (h0 : 0 ≤ v) (hL : v ≤ F.largestStored)
    (hR : F.largestStored < 2 ^ F.width) :
    negEval F v = (F.largestStored - v, false) ∧
      (negEval F (negEval F v).1).1 = v := by
  have hrange : ∀ u : Int, 0 ≤ u → u ≤ F.largestStored →
      negEval F u = (F.largestStored - u, false) := by
    intro u hu0 huL
    unfold negEval negationOverflows wrap wrapEvent
    rw [hs]
    simp only [Bool.not_false, eq_self_iff_true, if_true, Bool.false_and,
      Bool.false_or, Prod.mk.injEq]
    constructor
    · exact wrapCast_eq_self false F.width _ hW (by
        unfold inRange
        simp only [Bool.false_eq_true, if_false]
        omega)
    · unfold Fmt.leastStored
      rw [hs]
      simp only [Bool.false_eq_true, if_false]
      rw [decide_eq_false]
      omega
  have h1 := hrange v h0 hL
  refine ⟨h1, ?_⟩
  rw [h1]
  have h2 := hrange (F.largestStored - v) (by omega) (by omega)
  rw [h2]
  omega

/-- Witness for `c10_unsigned_negation`: the unsigned format with
8-bit storage, 3 integral and 4 fractional bits, at stored value 5. -/
theorem c10_unsigned_negation_witness :
    ((⟨false, 8, 3, 4, 0⟩ : Fmt).signed = false ∧ 0 < (8 : Nat) ∧
       0 ≤ (5 : Int) ∧ (5 : Int) ≤ (⟨false, 8, 3, 4, 0⟩ : Fmt).largestStored ∧
       (⟨false, 8, 3, 4, 0⟩ : Fmt).largestStored < 2 ^ (8 : Nat)) ∧
      negEval ⟨false, 8, 3, 4, 0⟩ 5 = ((⟨false, 8, 3, 4, 0⟩ : Fmt).largestStored - 5, false) ∧
      (negEval ⟨false, 8, 3, 4, 0⟩ (negEval ⟨false, 8, 3, 4, 0⟩ 5).1).1 = 5 :=
  ⟨⟨by decide, by decide, by decide, by decide, by decide⟩,
   c10_unsigned_negation ⟨false, 8, 3, 4, 0⟩ 5 (by decide) (by decide) (by decide)
     (by decide) (by decide)⟩

theorem wrapCast_of_dvd (sg : Bool) (W : Nat) (t : Int) (hW : 0 < W)
    (h : (2 ^ W : Int) ∣ t) : wrapCast sg W t = 0 := by
  obtain ⟨k, hk⟩ := h
  unfold wrapCast
  subst hk
  cases sg with
  | false =>
    simp only [Bool.false_eq_true, if_false]
    exact Int.mul_emod_right _ _
  | true =>
    simp only [eq_self_iff_true, if_true]
    rw [add_comm, Int.add_mul_emod_self_left]
    rw [Int.emod_eq_of_lt (by positivity) (by
      have := pow_split W hW
      have hp : (0 : Int) < 2 ^ (W - 1) := by positivity
      omega)]
    ring

theorem zero_inRange (sg : Bool) (W : Nat) (hW : 0 < W) : inRange sg W 0 := by
  unfold inRange
  split_ifs
  · constructor
    · simp only [neg_nonpos]
      positivity
    · positivity
  · exact ⟨le_refl 0, by positivity⟩

theorem shift_roundtrip (sg : Bool) (W s : Nat) (v : Int) (hW : 0 < W)
    (hv : inRange sg W v) :
    sar (wrapCast sg W (v * 2 ^ s)) s = v ↔ inRange sg W (v * 2 ^ s) := by
  constructor
  · intro hrt
    by_cases hsW : s ≤ W
    · obtain ⟨k, hk⟩ := wrapCast_sub_dvd sg W (v * 2 ^ s)
      have hr : wrapCast sg W (v * 2 ^ s) = 2 ^ s * (v - 2 ^ (W - s) * k) := by
        have hWs : (2 : Int) ^ W = 2 ^ s * 2 ^ (W - s) := by
          rw [← pow_add]
          congr 1
          omega
        rw [hWs] at hk
        linarith [hk]
      rw [hr] at hrt
      unfold sar at hrt
      rw [Int.mul_fdiv_cancel_left _ (by positivity)] at hrt
      have hk0 : (2 : Int) ^ (W - s) * k = 0 := by linarith
      have hk0' : k = 0 := by
        rcases mul_eq_zero.mp hk0 with h | h
        · exact absurd h (by positivity)
        · exact h
      rw [hk0', mul_zero] at hk
      have : wrapCast sg W (v * 2 ^ s) = v * 2 ^ s := by omega
      rw [← this]
      exact wrapCast_inRange sg W _ hW
    · have hdvd : (2 ^ W : Int) ∣ v * 2 ^ s := by
        refine Dvd.dvd.mul_left ?_ v
        exact pow_dvd_pow 2 (by omega)
      rw [wrapCast_of_dvd sg W _ hW hdvd] at hrt
      unfold sar at hrt
      rw [Int.zero_fdiv] at hrt
      subst hrt
      simpa using zero_inRange sg W hW
  · intro hin
    rw [wrapCast_eq_self sg W _ hW hin]
    unfold sar
    exact Int.mul_fdiv_cancel _ (by positivity)

/-- Claim C3: in the conversion of a stored integer `v` of format
`(f1, e1)` into format `(f, e)`, with `v` representable in the
destination storage: when `f + e - f1 - e1 ≥ 0`, `v` is left-shifted by
that difference and the overflow policy fires exactly when bits are
lost by the shift (the shifted value no longer fits the destination
storage); otherwise `v` is right-shifted (arithmetically) by the
absolute difference and the underflow policy fires exactly when `v` is
non-zero and the shifted result is zero. -/
theorem c3_normalize (F1 F : Fmt) (v : Int) (hW : 0 < F.width)
    (hv : inRange F.signed F.width v) :
    (0 ≤ (F.f : Int) + F.e - F1.f - F1.e →
      normalize F1 F v =
        (wrapCast F.signed F.width
           (v * 2 ^ ((F.f : Int) + F.e - F1.f - F1.e).toNat),
         decide (¬inRange F.signed F.width
           (v * 2 ^ ((F.f : Int) + F.e - F1.f - F1.e).toNat)),
         false)) ∧
    ((F.f : Int) + F.e - F1.f - F1.e < 0 →
      normalize F1 F v =
        (wrapCast F.signed F.width
           (sar v ((F1.f : Int) + F1.e - F.f - F.e).toNat),
         false,
         decide (v ≠ 0 ∧ wrapCast F.signed F.width
           (sar v ((F1.f : Int) + F1.e - F.f - F.e).toNat) = 0))) := by
  constructor
  · intro hd
    unfold normalize
    rw [if_neg (by omega)]
    rw [wrapCast_eq_self F.signed F.width v hW hv]
    simp only [Prod.mk.injEq, eq_self_iff_true, true_and, and_true]
    rw [decide_eq_decide, ne_comm]
    exact not_congr (shift_roundtrip F.signed F.width _ v hW hv)
  · intro hd
    unfold normalize
    rw [if_pos (by omega)]

/-- Witness for `c3_normalize`: converting the stored value 100 of the
signed format (f1 = 10, e1 = 0) into the signed 16-bit format
(f = 12, e = 0). -/
theorem c3_normalize_witness :
    (0 < (16 : Nat) ∧ inRange true 16 100) ∧
      ((0 : Int) ≤ (12 : Int) + 0 - 10 - 0 →
        normalize ⟨true, 16, 5, 10, 0⟩ ⟨true, 16, 3, 12, 0⟩ 100 =
          (wrapCast true 16 (100 * 2 ^ ((12 : Int) + 0 - 10 - 0).toNat),
           decide (¬inRange true 16 (100 * 2 ^ ((12 : Int) + 0 - 10 - 0).toNat)),
           false)) ∧
      ((12 : Int) + 0 - 10 - 0 < 0 →
        normalize ⟨true, 16, 5, 10, 0⟩ ⟨true, 16, 3, 12, 0⟩ 100 =
          (wrapCast true 16 (sar 100 ((10 : Int) + 0 - 12 - 0).toNat),
           false,
           decide (100 ≠ 0 ∧ wrapCast true 16
             (sar 100 ((10 : Int) + 0 - 12 - 0).toNat) = 0))) :=
  ⟨⟨by decide, by decide⟩,
   c3_normalize ⟨true, 16, 5, 10, 0⟩ ⟨true, 16, 3, 12, 0⟩ 100 (by decide) (by decide)⟩

theorem calcStored_eq (F : Fmt) (x : ℚ) :
    calcStoredFromReal F x =
      (wrapCast F.signed F.width
         (roundHalfAwayFromZero (x * (2 : ℚ) ^ ((F.f : Int) + F.e))),
       decide (0 < x ∧ wrapCast F.signed F.width
         (roundHalfAwayFromZero (x * (2 : ℚ) ^ ((F.f : Int) + F.e))) < 0)) := by
  have hq : x * (2 : ℚ) ^ F.e * (2 : ℚ) ^ F.f =
      x * (2 : ℚ) ^ ((F.f : Int) + F.e) := by
    rw [mul_assoc, ← zpow_natCast (2 : ℚ) F.f, ← zpow_add₀ (two_ne_zero),
      add_comm F.e (F.f : Int)]
  unfold calcStoredFromReal roundHalfAwayFromZero
  by_cases hx : 0 < x
  · rw [if_pos hx, hq]
    have h0q : (0 : ℚ) ≤ x * (2 : ℚ) ^ ((F.f : Int) + F.e) := by positivity
    rw [if_pos h0q]
    simp [hx]
  · rw [if_neg hx, hq]
    rcases lt_or_eq_of_le (not_lt.mp hx) with hneg | h0
    · have hqneg : ¬(0 : ℚ) ≤ x * (2 : ℚ) ^ ((F.f : Int) + F.e) := by
        apply not_le.mpr
        apply mul_neg_of_neg_of_pos hneg
        positivity
      rw [if_neg hqneg]
      simp [hx]
    · subst h0
      have hc : ⌈(0 : ℚ) * (2 : ℚ) ^ ((F.f : Int) + F.e) - 1 / 2⌉ = 0 := by
        rw [zero_mul, zero_sub]
        rw [Int.ceil_eq_iff]
        norm_num
      have hf : ⌊(0 : ℚ) * (2 : ℚ) ^ ((F.f : Int) + F.e) + 1 / 2⌋ = 0 := by
        rw [zero_mul, zero_add]
        rw [Int.floor_eq_iff]
        norm_num
      rw [if_pos (by simp)]
      rw [hc, hf]
      simp

/-- Claim C4 fails as stated: in the signed 8-bit format with 3 integral
and 4 fractional bits, the real input 16 rounds to the stored integer
256, which is outside the stored-integer bounds (largest is 127), yet
`calc_stored_integer_from` stores the wrapped value 0 and the overflow
policy does not fire. -/
theorem c4_counterexample :
    (⟨true, 8, 3, 4, 0⟩ : Fmt).largestStored <
        roundHalfAwayFromZero ((16 : ℚ) * (2 : ℚ) ^ (((4 : Nat) : Int) + (0 : Int))) ∧
      calcStoredFromReal ⟨true, 8, 3, 4, 0⟩ 16 = (0, false) := by
  have hexp : (((4 : Nat) : Int) + (0 : Int)) = (4 : Int) := by norm_num
  have hpow : (2 : ℚ) ^ (4 : Int) = 16 := by norm_num
  have hr : roundHalfAwayFromZero ((16 : ℚ) * (2 : ℚ) ^ (((4 : Nat) : Int) + (0 : Int))) = 256 := by
    rw [hexp, hpow]
    unfold roundHalfAwayFromZero
    rw [if_pos (by norm_num)]
    rw [Int.floor_eq_iff]
    constructor <;> norm_num
  constructor
  · rw [hr]
    decide
  · rw [calcStored_eq ⟨true, 8, 3, 4, 0⟩ 16]
    have hr' : roundHalfAwayFromZero
        ((16 : ℚ) * (2 : ℚ) ^ (((⟨true, 8, 3, 4, 0⟩ : Fmt).f : Int) + (⟨true, 8, 3, 4, 0⟩ : Fmt).e)) = 256 := hr
    rw [hr']
    constructor

/-- Claim C4 (amended): constructing a fixed-point number of format
`(f, e)` from a real `x` (real arithmetic idealized to exact rational
arithmetic) stores the value `round(x · 2^(f+e))` — halves rounded away
from zero — cast into the storage type (wrapping modulo `2^W`), and the
overflow policy fires exactly when `x > 0` and that cast stored integer
comes out negative; for `x ≤ 0` the policy never fires, even when the
rounded value is outside the stored-integer bounds. -/
theorem c4_construction_rounding (F : Fmt) (x : ℚ) :
    calcStoredFromReal F x =
      (wrapCast F.signed F.width
         (roundHalfAwayFromZero (x * (2 : ℚ) ^ ((F.f : Int) + F.e))),
       decide (0 < x ∧ wrapCast F.signed F.width
         (roundHalfAwayFromZero (x * (2 : ℚ) ^ ((F.f : Int) + F.e))) < 0)) :=
  calcStored_eq F x

theorem calcStored_one (F : Fmt) (hW : 0 < F.width) (hf : 0 ≤ (F.f : Int) + F.e)
    (hrep : inRange F.signed F.width (2 ^ ((F.f : Int) + F.e).toNat)) :
    (calcStoredFromReal F 1).1 = 2 ^ ((F.f : Int) + F.e).toNat := by
  rw [calcStored_eq]
  have hcast : (1 : ℚ) * (2 : ℚ) ^ ((F.f : Int) + F.e) =
      (((2 ^ ((F.f : Int) + F.e).toNat : Int) : ℚ)) := by
    rw [one_mul]
    conv_lhs =>
      rw [show ((F.f : Int) + F.e) = ((((F.f : Int) + F.e).toNat : Nat) : Int) from
            (Int.toNat_of_nonneg hf).symm,
        zpow_natCast]
    push_cast
    rfl
  rw [hcast]
  have hround : roundHalfAwayFromZero ((2 ^ ((F.f : Int) + F.e).toNat : Int) : ℚ) =
      2 ^ ((F.f : Int) + F.e).toNat := by
    unfold roundHalfAwayFromZero
    rw [if_pos (by positivity)]
    rw [Int.floor_eq_iff]
    constructor
    · norm_num
    · push_cast
      norm_num
  rw [hround]
  exact wrapCast_eq_self F.signed F.width _ hW hrep

/-- Claim C7 fails as stated: in the signed format Q(30, 20) the stored
integer 1048576 represents exactly x = 1, so |x| ≥ 1, yet the
`assert(fabs(_val) <= Q(1.0f))` in `std::atanh` passes (the comparison
is non-strict) and no domain error is raised. -/
theorem c7_counterexample :
    Fmt.value ⟨true, 32, 10, 20, 0⟩ 1048576 = 1 ∧
      atanhDomainError ⟨true, 32, 10, 20, 0⟩ 1048576 = false := by
  constructor
  · unfold Fmt.value
    norm_num
  · unfold atanhDomainError
    have h1 : (calcStoredFromReal ⟨true, 32, 10, 20, 0⟩ 1).1 =
        2 ^ (((20 : Nat) : Int) + (0 : Int)).toNat :=
      calcStored_one ⟨true, 32, 10, 20, 0⟩ (by decide) (by decide) (by decide)
    rw [h1]
    decide

/-- Claim C7 (amended): for a format that represents 1 exactly in its
storage (`f + e ≥ 0` and `2^(f+e)` in the storage range), the
`std::atanh` domain check raises exactly when `|x| > 1`; at `|x| = 1`
the assertion passes and no domain error is raised.  The check is an
`assert`, so it is independent of the overflow/underflow policies. -/
theorem c7_atanh_domain (F : Fmt) (v : Int) (hW : 0 < F.width)
    (hf : 0 ≤ (F.f : Int) + F.e)
    (hrep : inRange F.signed F.width (2 ^ ((F.f : Int) + F.e).toNat)) :
    atanhDomainError F v = true ↔ 1 < |Fmt.value F v| := by
  unfold atanhDomainError
  rw [calcStored_one F hW hf hrep]
  rw [decide_eq_true_eq, not_le]
  unfold Fmt.value
  have hd : -(F.f : Int) - F.e = -(((F.f : Int) + F.e).toNat : Int) := by
    rw [Int.toNat_of_nonneg hf]
    ring
  rw [hd]
  rw [zpow_neg, zpow_natCast]
  rw [abs_mul, abs_inv, abs_pow]
  have h2 : |(2 : ℚ)| = 2 := by norm_num
  rw [h2]
  rw [← div_eq_mul_inv]
  rw [one_lt_div (by positivity)]
  rw [← Int.cast_abs]
  constructor
  · intro h
    exact_mod_cast h
  · intro h
    exact_mod_cast h

/-- Witness for `c7_atanh_domain`: the signed format Q(30, 20) at
stored value 2000000 (which represents about 1.907 > 1). -/
theorem c7_atanh_domain_witness :
    (0 < (32 : Nat) ∧ 0 ≤ (((20 : Nat) : Int) + (0 : Int)) ∧
       inRange true 32 (2 ^ ((((20 : Nat) : Int) + (0 : Int)).toNat))) ∧
      (atanhDomainError ⟨true, 32, 10, 20, 0⟩ 2000000 = true ↔
        1 < |Fmt.value ⟨true, 32, 10, 20, 0⟩ 2000000|) :=
  ⟨⟨by decide, by decide, by decide⟩,
   c7_atanh_domain ⟨true, 32, 10, 20, 0⟩ 2000000 (by decide) (by decide) (by decide)⟩

theorem calcStored_three_halves_Q1020 :
    calcStoredFromReal ⟨true, 16, 18446744073709551606, 20, 0⟩ (3 / 2) = (0, false) := by
  rw [calcStored_eq]
  have hexp : (((20 : Nat) : Int) + (0 : Int)) = (20 : Int) := by norm_num
  have hpow : (2 : ℚ) ^ (20 : Int) = 1048576 := by norm_num
  have hr : roundHalfAwayFromZero ((3 / 2 : ℚ) * (2 : ℚ) ^ (((20 : Nat) : Int) + (0 : Int))) =
      1572864 := by
    rw [hexp, hpow]
    unfold roundHalfAwayFromZero
    rw [if_pos (by norm_num)]
    rw [Int.floor_eq_iff]
    constructor <;> norm_num
  rw [hr]
  have hw : wrapCast true 16 1572864 = 0 := by decide
  rw [hw]
  rw [decide_eq_false (by
    intro h
    exact absurd h.2 (by decide))]

/-- Claim C6 fails as stated: the code's `Q(10, 20)` is the format with
wordlength parameter 10 and 20 fractional bits over 16-bit storage
(the `n - f` template argument wraps in `std::size_t`); it has only 10
significant bits, so constructing 1.5 wraps to stored integer 0 (as
does 0.25), the sum of the two is stored 0, and nothing equals the
claimed stored integer 1835008 or the value 1.75. -/
theorem c6_counterexample :
    Qalias 10 20 0 = some ⟨true, 16, 18446744073709551606, 20, 0⟩ ∧
      calcStoredFromReal ⟨true, 16, 18446744073709551606, 20, 0⟩ (3 / 2) = (0, false) ∧
      sumEval ⟨true, 16, 18446744073709551606, 20, 0⟩ 0 0 = (0, false) ∧
      (0 : Int) ≠ 1835008 := by
  refine ⟨by decide, calcStored_three_halves_Q1020, by decide, by decide⟩

/-- Claim C6 (amended): the format with 10 integer and 20 fractional
bits is the code's `Q(30, 20)` (wordlength 30).  There, 1.5 is stored
as 1572864 and 0.25 as 262144; their sum evaluates, with no overflow
event, to the stored integer 1835008 in the promoted sum format, which
represents exactly 1.75.  In the code's `Q(10, 20)` the scenario fails
(see the counterexample). -/
theorem c6_sum_scenario :
    Qalias 30 20 0 = some ⟨true, 32, 10, 20, 0⟩ ∧
      calcStoredFromReal ⟨true, 32, 10, 20, 0⟩ (3 / 2) = (1572864, false) ∧
      calcStoredFromReal ⟨true, 32, 10, 20, 0⟩ (1 / 4) = (262144, false) ∧
      sumEval ⟨true, 32, 10, 20, 0⟩ 1572864 262144 = (1835008, false) ∧
      Fmt.value (sum_traits ⟨true, 32, 10, 20, 0⟩) 1835008 = 7 / 4 := by
  have hexp : (((20 : Nat) : Int) + (0 : Int)) = (20 : Int) := by norm_num
  have hpow : (2 : ℚ) ^ (20 : Int) = 1048576 := by norm_num
  refine ⟨by decide, ?_, ?_, by decide, ?_⟩
  · rw [calcStored_eq]
    have hr : roundHalfAwayFromZero
        ((3 / 2 : ℚ) * (2 : ℚ) ^ (((20 : Nat) : Int) + (0 : Int))) = 1572864 := by
      rw [hexp, hpow]
      unfold roundHalfAwayFromZero
      rw [if_pos (by norm_num)]
      rw [Int.floor_eq_iff]
      constructor <;> norm_num
    rw [hr]
    have hw : wrapCast true 32 1572864 = 1572864 := by decide
    rw [hw]
    rw [decide_eq_false (by
      intro h
      exact absurd h.2 (by decide))]
  · rw [calcStored_eq]
    have hr : roundHalfAwayFromZero
        ((1 / 4 : ℚ) * (2 : ℚ) ^ (((20 : Nat) : Int) + (0 : Int))) = 262144 := by
      rw [hexp, hpow]
      unfold roundHalfAwayFromZero
      rw [if_pos (by norm_num)]
      rw [Int.floor_eq_iff]
      constructor <;> norm_num
    rw [hr]
    have hw : wrapCast true 32 262144 = 262144 := by decide
    rw [hw]
    rw [decide_eq_false (by
      intro h
      exact absurd h.2 (by decide))]
  · have hS : sum_traits ⟨true, 32, 10, 20, 0⟩ = ⟨true, 32, 11, 20, 0⟩ := by decide
    rw [hS]
    unfold Fmt.value
    norm_num

theorem inRange_of_mul_pow (sg : Bool) (W s : Nat) (v : Int)
    (h : inRange sg W (v * 2 ^ s)) : inRange sg W v := by
  have hp : (1 : Int) ≤ 2 ^ s := by
    have h20 : (2 : Int) ^ 0 ≤ 2 ^ s := pow_le_pow_right₀ (by norm_num) (Nat.zero_le s)
    simpa using h20
  have hp1 : (0 : Int) < 2 ^ (W - 1) := by positivity
  have hpW : (0 : Int) < 2 ^ W := by positivity
  unfold inRange at h ⊢
  by_cases hv : 0 ≤ v
  · have hle : v ≤ v * 2 ^ s := le_mul_of_one_le_right hv hp
    cases sg with
    | false =>
      simp only [Bool.false_eq_true, if_false] at h ⊢
      exact ⟨hv, by linarith [h.2]⟩
    | true =>
      simp only [eq_self_iff_true, if_true] at h ⊢
      exact ⟨by linarith, by linarith [h.2]⟩
  · push_neg at hv
    have hle : v * 2 ^ s ≤ v := by
      calc v * 2 ^ s ≤ v * 1 := by
            apply mul_le_mul_of_nonpos_left hp (le_of_lt hv)
        _ = v := mul_one v
    cases sg with
    | false =>
      simp only [Bool.false_eq_true, if_false] at h
      exact absurd h.1 (by
        apply not_le.mpr
        exact mul_neg_of_neg_of_pos hv (by positivity))
    | true =>
      simp only [eq_self_iff_true, if_true] at h ⊢
      exact ⟨by linarith [h.1], by linarith⟩

/-- Claim C2 fails as stated: with the spec's reading of `(n, f)` as
integer/fractional bit counts, the quotient of the signed formats
A = (4, 2) and B = (3, 1) would get `n = 7`, `f = 2 + (3 - 1) = 4`;
the code's promotion (core::quotient with wordlengths 6 and 4) instead
yields 9 integer bits and 5 fractional bits over the same 16-bit
storage. -/
theorem c2_counterexample :
    div_of ⟨true, 8, 4, 2, 0⟩ ⟨true, 8, 3, 1, 0⟩ ≠
      divFmtClaimed ⟨true, 8, 4, 2, 0⟩ ⟨true, 8, 3, 1, 0⟩ := by
  decide

/-- Claim C2 (amended): for signed operands A, B whose wordlengths
`n_X + f_X` sum to at most 63 (the expandable case), the quotient's
format has `(n_A + f_A) + (n_B + f_B)` significant bits — integer bits
`n_A + f_B`, fractional bits `f_A + n_B`; equivalently the spec's
`n = n_A + n_B`, `f = f_A + (n_B - f_B)` with `n` read as wordlength —
scaling exponent `e_A - e_B` (modelled from the spec, div_of.inl being
absent from src), over the smallest signed host integer with one more
bit (the sign); and for stored operands small enough that no wrap or
overflow event occurs, the result's stored integer is the numerator's
stored integer left-shifted by `n_B + f_B` bits, divided (truncating
toward zero) by the denominator's stored integer. -/
theorem c2_quotient_promotion (A B : Fmt) (hs : A.signed = true)
    (hexp : (A.n + A.f) + (B.n + B.f) ≤ 63) :
    ∃ w, intLeastWidth ((A.n + A.f) + (B.n + B.f) + 1) = some w ∧
      div_of A B = some ⟨true, w, A.n + B.f, A.f + B.n, A.e - B.e⟩ ∧
      ∀ va vb : Int,
        inRange true w (va * 2 ^ (B.n + B.f)) →
        inRange true w vb →
        vb ≠ 0 →
        ¬(va = A.leastStored ∧ vb = -1) →
        -2 ^ ((A.n + A.f) + (B.n + B.f)) ≤ Int.tdiv (va * 2 ^ (B.n + B.f)) vb →
        Int.tdiv (va * 2 ^ (B.n + B.f)) vb ≤ 2 ^ ((A.n + A.f) + (B.n + B.f)) - 1 →
        divEval A B va vb = some (Int.tdiv (va * 2 ^ (B.n + B.f)) vb, false) := by
  have hAs : A.signed = true := hs
  obtain ⟨w, hw, hwmem, hwge, hwmin⟩ :=
    intLeastWidth_spec ((A.n + A.f) + (B.n + B.f) + 1) (by omega)
  have hW0 : 0 < w := by omega
  have hsz : (B.n + B.f) < szMod := by
    rw [szMod_val]
    omega
  have hclosed :
      quotientClosed ⟨A.signed, A.width, A.n + A.f, A.f⟩
        ⟨B.signed, B.width, B.n + B.f, B.f⟩ = false := by
    unfold quotientClosed
    rw [decide_eq_false_iff_not, not_not]
    rw [hs]
    rw [if_pos rfl]
    show (A.n + A.f) + (B.n + B.f) ≤ 63
    omega
  have hsub : subSz (B.n + B.f) B.f = B.n := by
    rw [subSz_eq_sub (B.n + B.f) B.f (by omega) hsz]
    omega
  have hfmt : quotientFmt ⟨A.signed, A.width, A.n + A.f, A.f⟩
      ⟨B.signed, B.width, B.n + B.f, B.f⟩ =
      some ⟨A.signed, w, (A.n + A.f) + (B.n + B.f), A.f + B.n⟩ := by
    unfold quotientFmt
    rw [hclosed]
    simp only [Bool.false_eq_true, if_false]
    rw [hs]
    rw [if_pos rfl, hw]
    simp only [Option.map_some']
    rw [hsub]
  have hdiv : div_of A B = some ⟨true, w, A.n + B.f, A.f + B.n, A.e - B.e⟩ := by
    unfold div_of
    dsimp only
    rw [hfmt]
    simp only [Option.map_some']
    rw [hclosed]
    simp only [Bool.false_eq_true, if_false]
    have hnn : (A.n + A.f) + (B.n + B.f) - (A.f + B.n) = A.n + B.f := by omega
    rw [hnn, hs]
  refine ⟨w, hw, hdiv, ?_⟩
  intro va vb hva hvb hvz hmin hlo hhi
  unfold divEval
  dsimp only
  rw [hdiv]
  simp only [Option.map_some', Option.some.injEq]
  dsimp only
  have hnsb : (B.n + B.f) % szMod = B.n + B.f := Nat.mod_eq_of_lt hsz
  have hovf : divisionOverflows A B va vb = false := by
    unfold divisionOverflows
    rw [decide_eq_false hvz, decide_eq_false hmin]
    simp
  have hwa : wrapCast true w va = va :=
    wrapCast_eq_self true w va hW0 (inRange_of_mul_pow true w (B.n + B.f) va hva)
  have hwb : wrapCast true w vb = vb := wrapCast_eq_self true w vb hW0 hvb
  have hq : inRange true w (Int.tdiv (va * 2 ^ (B.n + B.f)) vb) := by
    unfold inRange
    simp only [eq_self_iff_true, if_true]
    have hle : (2 : Int) ^ ((A.n + A.f) + (B.n + B.f)) ≤ 2 ^ (w - 1) :=
      pow_le_pow_right₀ (by norm_num) (by omega)
    omega
  have hwq : wrapCast true w (Int.tdiv (va * 2 ^ (B.n + B.f)) vb) =
      Int.tdiv (va * 2 ^ (B.n + B.f)) vb :=
    wrapCast_eq_self true w _ hW0 hq
  have hevent : wrapEvent ⟨true, w, A.n + B.f, A.f + B.n, A.e - B.e⟩
      (Int.tdiv (va * 2 ^ (B.n + B.f)) vb) = false := by
    unfold wrapEvent Fmt.leastStored Fmt.largestStored Fmt.nsb
    rw [decide_eq_false_iff_not]
    simp only [eq_self_iff_true, if_true]
    have hnsb2 : (A.n + B.f + (A.f + B.n)) % szMod = (A.n + A.f) + (B.n + B.f) := by
      rw [show A.n + B.f + (A.f + B.n) = (A.n + A.f) + (B.n + B.f) by omega]
      rw [szMod_val]
      omega
    rw [hnsb2]
    omega
  rw [hnsb, hovf, hwa, hwb, hclosed]
  have hshift : wrapCast true w (va * 2 ^ (B.n + B.f)) = va * 2 ^ (B.n + B.f) :=
    wrapCast_eq_self true w _ hW0 hva
  rw [hshift]
  unfold wrap
  rw [hwq, hevent]
  simp

/-- Witness for `c2_quotient_promotion`: A is the signed format with 4
integer and 2 fractional bits, B the signed format with 3 integer and
1 fractional bit; stored operands 10 (= 2.5) and 2 (= 1.0). -/
theorem c2_quotient_promotion_witness :
    ((⟨true, 8, 4, 2, 0⟩ : Fmt).signed = true ∧
       ((⟨true, 8, 4, 2, 0⟩ : Fmt).n + (⟨true, 8, 4, 2, 0⟩ : Fmt).f) +
         ((⟨true, 8, 3, 1, 0⟩ : Fmt).n + (⟨true, 8, 3, 1, 0⟩ : Fmt).f) ≤ 63) ∧
      (∃ w, intLeastWidth
            (((⟨true, 8, 4, 2, 0⟩ : Fmt).n + (⟨true, 8, 4, 2, 0⟩ : Fmt).f) +
              ((⟨true, 8, 3, 1, 0⟩ : Fmt).n + (⟨true, 8, 3, 1, 0⟩ : Fmt).f) + 1) = some w ∧
        div_of ⟨true, 8, 4, 2, 0⟩ ⟨true, 8, 3, 1, 0⟩ =
          some ⟨true, w, (⟨true, 8, 4, 2, 0⟩ : Fmt).n + (⟨true, 8, 3, 1, 0⟩ : Fmt).f,
                (⟨true, 8, 4, 2, 0⟩ : Fmt).f + (⟨true, 8, 3, 1, 0⟩ : Fmt).n,
                (⟨true, 8, 4, 2, 0⟩ : Fmt).e - (⟨true, 8, 3, 1, 0⟩ : Fmt).e⟩ ∧
        ∀ va vb : Int,
          inRange true w (va * 2 ^ ((⟨true, 8, 3, 1, 0⟩ : Fmt).n + (⟨true, 8, 3, 1, 0⟩ : Fmt).f)) →
          inRange true w vb →
          vb ≠ 0 →
          ¬(va = (⟨true, 8, 4, 2, 0⟩ : Fmt).leastStored ∧ vb = -1) →
          -2 ^ (((⟨true, 8, 4, 2, 0⟩ : Fmt).n + (⟨true, 8, 4, 2, 0⟩ : Fmt).f) +
                ((⟨true, 8, 3, 1, 0⟩ : Fmt).n + (⟨true, 8, 3, 1, 0⟩ : Fmt).f)) ≤
            Int.tdiv (va * 2 ^ ((⟨true, 8, 3, 1, 0⟩ : Fmt).n + (⟨true, 8, 3, 1, 0⟩ : Fmt).f)) vb →
          Int.tdiv (va * 2 ^ ((⟨true, 8, 3, 1, 0⟩ : Fmt).n + (⟨true, 8, 3, 1, 0⟩ : Fmt).f)) vb ≤
            2 ^ (((⟨true, 8, 4, 2, 0⟩ : Fmt).n + (⟨true, 8, 4, 2, 0⟩ : Fmt).f) +
                 ((⟨true, 8, 3, 1, 0⟩ : Fmt).n + (⟨true, 8, 3, 1, 0⟩ : Fmt).f)) - 1 →
          divEval ⟨true, 8, 4, 2, 0⟩ ⟨true, 8, 3, 1, 0⟩ va vb =
            some (Int.tdiv
              (va * 2 ^ ((⟨true, 8, 3, 1, 0⟩ : Fmt).n + (⟨true, 8, 3, 1, 0⟩ : Fmt).f)) vb,
              false)) :=
  ⟨⟨by decide, by decide⟩,
   c2_quotient_promotion ⟨true, 8, 4, 2, 0⟩ ⟨true, 8, 3, 1, 0⟩ (by decide) (by decide)⟩

theorem seqIdx_ge (k : Nat) : k + 4 ≤ seqIdx k := by
  induction k with
  | zero => rfl
  | succ m ih =>
    unfold seqIdx
    omega

theorem seqIdx_lt_succ (k : Nat) : seqIdx k < seqIdx (k + 1) := by
  have h := seqIdx_ge k
  show seqIdx k < 3 * seqIdx k + 1
  omega

theorem seqIdx_strictMono : StrictMono seqIdx :=
  strictMono_nat_of_lt_succ seqIdx_lt_succ

theorem inSeq_iff (i : Nat) : inSeq i = true ↔ ∃ k, seqIdx k = i := by
  unfold inSeq
  rw [List.any_eq_true]
  constructor
  · rintro ⟨k, _, hk⟩
    exact ⟨k, by simpa using hk⟩
  · rintro ⟨k, hk⟩
    refine ⟨k, List.mem_range.mpr ?_, by simpa using hk⟩
    have := seqIdx_ge k
    omega

theorem schedGo_out (n : Nat) (fuel i rep : Nat) (h : n ≤ i) :
    hyperSchedGo n fuel i rep = [] := by
  cases fuel with
  | zero => rfl
  | succ f =>
    rw [hyperSchedGo, if_neg (by omega)]

theorem schedGo_spec (n : Nat) :
    ∀ (fuel i k : Nat), n ≤ fuel + i → i ≤ seqIdx k →
      (∀ j, j < k → seqIdx j < i) →
      hyperSchedGo n fuel i (seqIdx k) =
        (List.range' i (n - i)).flatMap
          (fun j => if inSeq j = true ∧ j ≠ n - 1 then [j, j] else [j]) := by
  intro fuel
  induction fuel with
  | zero =>
    intro i k hfi hik hb
    have h0 : n - i = 0 := by omega
    rw [h0]
    rfl
  | succ fuel ih =>
    intro i k hfi hik hb
    by_cases hin : i < n
    · rw [hyperSchedGo, if_pos hin]
      have hrange : n - i = (n - (i + 1)) + 1 := by omega
      rw [hrange, List.range'_succ, List.flatMap_cons]
      by_cases hieq : i = seqIdx k
      · have hseq : inSeq i = true := (inSeq_iff i).mpr ⟨k, hieq.symm⟩
        by_cases hlast : i = n - 1
        · have hcF : ¬(i = seqIdx k ∧ i ≠ n - 1) := fun h => h.2 hlast
          have hsF : ¬(inSeq i = true ∧ i ≠ n - 1) := fun h => h.2 hlast
          rw [if_neg hcF, if_neg hcF, if_neg hsF]
          have hend : n - (i + 1) = 0 := by omega
          rw [hend, schedGo_out n fuel (i + 1) (seqIdx k) (by omega)]
          rfl
        · have hcT : i = seqIdx k ∧ i ≠ n - 1 := ⟨hieq, hlast⟩
          have hsT : inSeq i = true ∧ i ≠ n - 1 := ⟨hseq, hlast⟩
          rw [if_pos hcT, if_pos hcT, if_pos hsT]
          have hnext : 3 * seqIdx k + 1 = seqIdx (k + 1) := rfl
          rw [hnext]
          have hik' : i + 1 ≤ seqIdx (k + 1) := by
            have h4 := seqIdx_ge k
            have h5 := seqIdx_lt_succ k
            omega
          have hb' : ∀ j, j < k + 1 → seqIdx j < i + 1 := by
            intro j hj
            rcases Nat.lt_succ_iff_lt_or_eq.mp hj with hj' | hj'
            · have := hb j hj'
              omega
            · subst hj'
              omega
          rw [ih (i + 1) (k + 1) (by omega) hik' hb']
      · have hlt : i < seqIdx k := lt_of_le_of_ne hik hieq
        have hseqf : ¬inSeq i = true := by
          rw [inSeq_iff]
          rintro ⟨m, hm⟩
          by_cases hmk : m < k
          · have := hb m hmk
            omega
          · have : seqIdx k ≤ seqIdx m := seqIdx_strictMono.le_iff_le.mpr (by omega)
            omega
        have hcF : ¬(i = seqIdx k ∧ i ≠ n - 1) := fun h => hieq h.1
        have hsF : ¬(inSeq i = true ∧ i ≠ n - 1) := fun h => hseqf h.1
        rw [if_neg hcF, if_neg hcF, if_neg hsF]
        have hb' : ∀ j, j < k → seqIdx j < i + 1 := by
          intro j hj
          have := hb j hj
          omega
        rw [ih (i + 1) k (by omega) (by omega) hb']
    · rw [hyperSchedGo, if_neg hin]
      have h0 : n - i = 0 := by omega
      rw [h0]
      rfl

theorem hyperSched_eq (n : Nat) :
    hyperSched n =
      (List.range' 1 (n - 1)).flatMap
        (fun j => if inSeq j = true ∧ j ≠ n - 1 then [j, j] else [j]) := by
  unfold hyperSched
  have h4 : (4 : Nat) = seqIdx 0 := rfl
  rw [h4]
  rw [schedGo_spec n n 1 0 (by omega) (by simp [seqIdx]) (fun j hj => absurd hj (by omega))]

theorem prod_flatMap_pow (L : List Nat) (c : Nat → Prop) [DecidablePred c]
    (f : Nat → ℝ) :
    ((L.flatMap (fun j => if c j then [j, j] else [j])).map f).prod =
      (L.map (fun i => f i ^ (if c i then 2 else 1))).prod := by
  induction L with
  | nil => rfl
  | cons a t ih =>
    rw [List.flatMap_cons, List.map_append, List.prod_append, ih,
      List.map_cons, List.prod_cons]
    split_ifs with h
    · simp only [List.map_cons, List.map_nil, List.prod_cons, List.prod_nil]
      ring
    · simp only [List.map_cons, List.map_nil, List.prod_cons, List.prod_nil]
      ring

/-- Claim C9 fails as stated: for a schedule of n = 5 iterations, the
index 4 belongs to the repeated sequence, but being the last iteration
(`i == n - 1`) the source applies its factor only once, whereas the
claim's product squares it. -/
theorem c9_counterexample : hyperbolicScale 5 ≠ hyperbolicScaleClaimed 5 := by
  unfold hyperbolicScale hyperbolicScaleClaimed
  rw [show hyperSched 5 = [1, 2, 3, 4] from rfl]
  rw [show List.range' 1 (5 - 1) = [1, 2, 3, 4] from rfl]
  simp only [List.map_cons, List.map_nil, List.prod_cons, List.prod_nil]
  rw [show inSeq 1 = false from rfl, show inSeq 2 = false from rfl,
    show inSeq 3 = false from rfl, show inSeq 4 = true from rfl]
  simp only [Bool.false_eq_true, if_false, if_true, eq_self_iff_true, pow_one]
  have hfpos : ∀ i : Nat, 1 ≤ i → 0 < hyperFactor i := by
    intro i hi
    unfold hyperFactor
    apply Real.sqrt_pos.mpr
    have h1 : (2 : ℝ) ^ (-(2 * (i : Int))) < 1 := by
      rw [zpow_neg]
      rw [inv_lt_one_iff₀]
      right
      apply one_lt_zpow₀ (by norm_num)
      omega
    linarith
  have h1 := hfpos 1 (by norm_num)
  have h2 := hfpos 2 (by norm_num)
  have h3 := hfpos 3 (by norm_num)
  have h4 := hfpos 4 (by norm_num)
  have h4lt : hyperFactor 4 < 1 := by
    unfold hyperFactor
    have harg : (1 : ℝ) - (2 : ℝ) ^ (-(2 * ((4 : Nat) : Int))) < 1 := by
      have : (0 : ℝ) < (2 : ℝ) ^ (-(2 * ((4 : Nat) : Int))) := by positivity
      linarith
    calc Real.sqrt (1 - (2 : ℝ) ^ (-(2 * ((4 : Nat) : Int)))) <
          Real.sqrt 1 := by
          apply Real.sqrt_lt_sqrt ?_ harg
          have h256 : (2 : ℝ) ^ (-(2 * ((4 : Nat) : Int))) = 1 / 256 := by
            norm_num
          rw [h256]
          norm_num
      _ = 1 := Real.sqrt_one
  intro heq
  have heq2 : hyperFactor 4 * 1 = hyperFactor 4 ^ 2 * 1 := by
    have c1 := mul_left_cancel₀ (ne_of_gt h1) heq
    have c2 := mul_left_cancel₀ (ne_of_gt h2) c1
    exact mul_left_cancel₀ (ne_of_gt h3) c2
  have heq3 : hyperFactor 4 = hyperFactor 4 ^ 2 := by
    simpa using heq2
  nlinarith

/-- Claim C9 (amended): the hyperbolic normalisation constant for a
schedule of n iterations is the product over i = 1 … n-1 of the factor
sqrt(1 - 2^(-2i)), the factor for i applied a second time exactly when
i belongs to the repeated-iteration sequence 4, 13, 40, … (each
subsequent 3·previous + 1) *and* i is not the last iteration index
n - 1. -/
theorem c9_hyperbolic_scale (n : Nat) :
    hyperbolicScale n = hyperbolicScaleAmended n := by
  unfold hyperbolicScale hyperbolicScaleAmended
  rw [hyperSched_eq]
  exact prod_flatMap_pow (List.range' 1 (n - 1))
    (fun j => inSeq j = true ∧ j ≠ n - 1) hyperFactor

/-- Claim C8 fails as stated: at x = 1 the source's sinh, which feeds
`val * CONST_LOG2E` to the exponential, differs from
`(exp(x) - exp(-x))/2` with the exponential applied to x itself. -/
theorem c8_counterexample : qsinh 1 ≠ (Real.exp 1 - Real.exp (-1)) / 2 := by
  unfold qsinh qexp constLog2E
  rw [one_mul]
  rw [← Real.sinh_eq, ← Real.sinh_eq]
  intro h
  have heq := Real.sinh_injective h
  have hpos : 0 < Real.log 2 := Real.log_pos (by norm_num)
  have hne : Real.log 2 ≠ 0 := ne_of_gt hpos
  have hlog2 : Real.log 2 = 1 := by
    field_simp at heq
    linarith [heq]
  have hlt := Real.log_two_lt_d9
  rw [hlog2] at hlt
  norm_num at hlt

/-- Claim C8 (amended): the source's sinh applies the exponential to
`x · log₂ e`, not to x itself:
`sinh_code(x) = (exp(x·log₂e) - exp(-x·log₂e)) / 2 = sinh(x / ln 2)`
(idealizing the fixed-point constant, the absent exp kernel and the
final halving shift to exact real arithmetic). -/
theorem c8_sinh (v : ℝ) :
    qsinh v = Real.sinh (v / Real.log 2) ∧
      qsinh v = (qexp (v * constLog2E) - qexp (-(v * constLog2E))) / 2 := by
  constructor
  · unfold qsinh qexp constLog2E
    rw [← Real.sinh_eq]
    congr 1
    ring
  · rfl

theorem fmod_two_pi_lower (θ : ℝ) (hθ : 0 ≤ θ) :
    fmodR θ (2 * Real.pi) = 2 * Real.pi * Int.fract (θ / (2 * Real.pi)) ∧
      Real.sin (fmodR θ (2 * Real.pi)) = Real.sin θ := by
  have hP := Real.pi_pos
  have h2P : (0 : ℝ) < 2 * Real.pi := by linarith
  have htr : rtrunc (θ / (2 * Real.pi)) = ⌊θ / (2 * Real.pi)⌋ := by
    unfold rtrunc
    rw [if_pos (by positivity)]
  have hrdef : fmodR θ (2 * Real.pi) = θ - 2 * Real.pi * ⌊θ / (2 * Real.pi)⌋ := by
    unfold fmodR
    rw [htr]
  constructor
  · rw [hrdef, Int.fract]
    field_simp
  · rw [hrdef]
    have heq : θ - 2 * Real.pi * ⌊θ / (2 * Real.pi)⌋ =
        θ + ((-⌊θ / (2 * Real.pi)⌋ : ℤ) : ℝ) * (2 * Real.pi) := by
      push_cast
      ring
    rw [heq, Real.sin_add_int_mul_two_pi]

/-- Claim C5 fails as stated: at θ = -(3π/2), `fmod` keeps the
dividend's sign, so x = π - fmod(θ, 2π) = 5π/2 and the second branch
yields arg = 3π/2, outside the CORDIC convergence interval
[-π/2, π/2]. -/
theorem sinReduce_def (θ : ℝ) :
    sinReduce θ =
      (if Real.pi - fmodR θ (2 * Real.pi) < -(Real.pi / 2)
       then (Real.pi - fmodR θ (2 * Real.pi) + Real.pi, -1)
       else if Real.pi - fmodR θ (2 * Real.pi) > Real.pi / 2
       then (Real.pi - fmodR θ (2 * Real.pi) - Real.pi, -1)
       else (Real.pi - fmodR θ (2 * Real.pi), 1)) :=
  rfl

theorem c5_counterexample :
    Real.pi / 2 < (sinReduce (-(3 * Real.pi / 2))).1 := by
  have hP := Real.pi_pos
  have hfmod : fmodR (-(3 * Real.pi / 2)) (2 * Real.pi) = -(3 * Real.pi / 2) := by
    unfold fmodR rtrunc
    have hdiv : -(3 * Real.pi / 2) / (2 * Real.pi) = -(3 / 4 : ℝ) := by
      rw [div_eq_iff (by linarith : (2 * Real.pi : ℝ) ≠ 0)]
      ring
    rw [hdiv]
    rw [if_neg (by norm_num)]
    have hceil : ⌈(-(3 / 4) : ℝ)⌉ = 0 := by
      apply Int.ceil_eq_iff.mpr
      constructor <;> norm_num
    rw [hceil]
    push_cast
    ring
  have harg : (sinReduce (-(3 * Real.pi / 2))).1 = 3 * Real.pi / 2 := by
    rw [sinReduce_def, hfmod]
    rw [if_neg (not_lt.mpr (by linarith))]
    rw [if_pos (by
      show Real.pi / 2 < Real.pi - -(3 * Real.pi / 2)
      linarith)]
    show Real.pi - -(3 * Real.pi / 2) - Real.pi = 3 * Real.pi / 2
    ring
  rw [harg]
  linarith

/-- Claim C5 (amended): for θ ≥ 0 (equivalently, whenever
`fmod(θ, 2π)` is non-negative) the reduction x = π - fmod(θ, 2π) and
the two-branch correction land the CORDIC argument in [-π/2, π/2] and
satisfy sign · sin(arg) = sin(θ); for θ < 0 with fmod(θ, 2π) < -π/2
the argument can leave the convergence interval (see the
counterexample), although the sign identity itself still holds there.
Constants are idealized to exact π, π/2, 2π. -/
theorem c5_sin_reduction (θ : ℝ) (hθ : 0 ≤ θ) :
    -(Real.pi / 2) ≤ (sinReduce θ).1 ∧ (sinReduce θ).1 ≤ Real.pi / 2 ∧
      ((sinReduce θ).2 : ℝ) * Real.sin (sinReduce θ).1 = Real.sin θ := by
  have hP := Real.pi_pos
  obtain ⟨hfract, hsinr⟩ := fmod_two_pi_lower θ hθ
  have hfr0 : 0 ≤ Int.fract (θ / (2 * Real.pi)) := Int.fract_nonneg _
  have hfr1 : Int.fract (θ / (2 * Real.pi)) < 1 := Int.fract_lt_one _
  have hr0 : 0 ≤ fmodR θ (2 * Real.pi) := by
    rw [hfract]
    positivity
  have hr1 : fmodR θ (2 * Real.pi) < 2 * Real.pi := by
    rw [hfract]
    nlinarith
  rw [sinReduce_def]
  split_ifs with h1 h2
  · refine ⟨?_, ?_, ?_⟩
    · show -(Real.pi / 2) ≤ Real.pi - fmodR θ (2 * Real.pi) + Real.pi
      linarith
    · show Real.pi - fmodR θ (2 * Real.pi) + Real.pi ≤ Real.pi / 2
      linarith
    · show ((-1 : Int) : ℝ) *
        Real.sin (Real.pi - fmodR θ (2 * Real.pi) + Real.pi) = Real.sin θ
      push_cast
      rw [Real.sin_add_pi, Real.sin_pi_sub, hsinr]
      ring
  · refine ⟨?_, ?_, ?_⟩
    · show -(Real.pi / 2) ≤ Real.pi - fmodR θ (2 * Real.pi) - Real.pi
      linarith
    · show Real.pi - fmodR θ (2 * Real.pi) - Real.pi ≤ Real.pi / 2
      linarith
    · show ((-1 : Int) : ℝ) *
        Real.sin (Real.pi - fmodR θ (2 * Real.pi) - Real.pi) = Real.sin θ
      push_cast
      rw [Real.sin_sub_pi, Real.sin_pi_sub, hsinr]
      ring
  · refine ⟨?_, ?_, ?_⟩
    · show -(Real.pi / 2) ≤ Real.pi - fmodR θ (2 * Real.pi)
      linarith
    · show Real.pi - fmodR θ (2 * Real.pi) ≤ Real.pi / 2
      linarith
    · show ((1 : Int) : ℝ) * Real.sin (Real.pi - fmodR θ (2 * Real.pi)) = Real.sin θ
      push_cast
      rw [Real.sin_pi_sub, hsinr]
      ring

/-- Witness for `c5_sin_reduction` at θ = 0. -/
theorem c5_sin_reduction_witness :
    (0 : ℝ) ≤ 0 ∧
      (-(Real.pi / 2) ≤ (sinReduce 0).1 ∧ (sinReduce 0).1 ≤ Real.pi / 2 ∧
        ((sinReduce 0).2 : ℝ) * Real.sin (sinReduce 0).1 = Real.sin 0) :=
  ⟨le_refl 0, c5_sin_reduction 0 (le_refl 0)⟩

end LibQ

